import Mathlib

/-!
# Verification of the day-7 cookie bakery routes

Shallow embedding of `src/routes/day7.rs`.  `HashMap<String, u64>` values are
modelled as association lists over `String × Nat` (the spec's ingredient maps
carry unique keys, which theorems assume explicitly where it matters).  Code
paths that panic in Rust — the `u64` division `pantry_amount / recipe_amount`
when `recipe_amount = 0`, the indexing `bakery.pantry[ingredient]`, and the
unsigned subtraction — are modelled by returning `none`.
-/

namespace Day7

/-- Ingredient maps: `HashMap<String, u64>` in the source, modelled as an
association list.  Quantities are `u64` values, embedded as `Nat` (all values
produced by the decoder are `< 2^64`; no arithmetic in the allocator can
overflow on the non-panicking paths, see `firstLoop_done_spec`). -/
abbrev IngMap := List (String × Nat)

/-- `HashMap::get`: the value of the first entry with the given key. -/
def mapGet (m : IngMap) (k : String) : Option Nat :=
  match m with
  | [] => none
  | (k', v) :: rest => if k' = k then some v else mapGet rest k

/-- The `Bakery` struct of the source: recipe requirements and pantry stock. -/
structure Bakery where
  recipe : IngMap
  pantry : IngMap
deriving DecidableEq

/-- The `BakeReply` struct of the source: cookie count and residual pantry. -/
structure BakeReply where
  cookies : Nat
  pantry : IngMap
deriving DecidableEq

/-- Outcome of the first `for` loop of `calculate_cookies`: an early
`return` with a reply, a completed pass with the collected per-ingredient
counts, or a Rust panic (division by zero). -/
inductive LoopOut where
  | panicked : LoopOut
  | ret : BakeReply → LoopOut
  | done : List Nat → LoopOut
deriving DecidableEq

/-- First loop of `calculate_cookies` (lines 106–135 of the source).  For each
recipe entry: a missing pantry ingredient or `recipe_amount > pantry_amount`
returns `{cookies: 0, pantry: <original pantry>}` immediately; otherwise the
source computes `pantry_amount / recipe_amount`, which panics when
`recipe_amount = 0` (modelled as `.panicked`), and pushes the quotient. -/
def firstLoop (pantry : IngMap) : IngMap → LoopOut
  | [] => .done []
  | (ingredient, recipe_amount) :: rest =>
    match mapGet pantry ingredient with
    | none => .ret ⟨0, pantry⟩
    | some pantry_amount =>
      if recipe_amount > pantry_amount then .ret ⟨0, pantry⟩
      else if recipe_amount = 0 then .panicked
      else
        match firstLoop pantry rest with
        | .done counts => .done (pantry_amount / recipe_amount :: counts)
        | out => out

/-- Running minimum, as `Iterator::min` computes it over a nonempty tail. -/
def minAux (a : Nat) : List Nat → Nat
  | [] => a
  | x :: xs => minAux (min a x) xs

/-- `max_cookies_by_ingredient.iter().min().unwrap_or(&0)` of the source:
the minimum of the collected counts, `0` for an empty collection. -/
def minOrZero : List Nat → Nat
  | [] => 0
  | x :: xs => minAux x xs

/-- Second loop of `calculate_cookies` (lines 138–146).  The source indexes
`bakery.pantry[ingredient]` (a panic when absent, modelled as `none`) and
computes the `u64` subtraction `pantry_amount - recipe_amount * count`
(a debug-mode panic on underflow, modelled as `none`; `firstLoop_done_spec`
shows neither can happen after a completed first loop). -/
def secondLoop (pantry : IngMap) (count : Nat) : IngMap → Option IngMap
  | [] => some []
  | (ingredient, recipe_amount) :: rest =>
    match mapGet pantry ingredient with
    | none => none
    | some pantry_amount =>
      if recipe_amount * count ≤ pantry_amount then
        match secondLoop pantry count rest with
        | none => none
        | some tail => some ((ingredient, pantry_amount - recipe_amount * count) :: tail)
      else none

/-- `calculate_cookies` (lines 101–152 of the source). -/
def calculate_cookies (bakery : Bakery) : Option BakeReply :=
  match firstLoop bakery.pantry bakery.recipe with
  | .panicked => none
  | .ret reply => some reply
  | .done counts =>
    match secondLoop bakery.pantry (minOrZero counts) bakery.recipe with
    | none => none
    | some remaining_pantry => some ⟨minOrZero counts, remaining_pantry⟩

/-! ## Properties of the running minimum -/

theorem minAux_le_start (a : Nat) (l : List Nat) : minAux a l ≤ a := by
  induction l generalizing a with
  | nil => exact Nat.le_refl a
  | cons x xs ih => exact Nat.le_trans (ih (min a x)) (Nat.min_le_left a x)

theorem minAux_le_mem {x : Nat} {l : List Nat} (a : Nat) (hx : x ∈ l) : minAux a l ≤ x := by
  induction l generalizing a with
  | nil => cases hx
  | cons y ys ih =>
    rcases List.mem_cons.mp hx with h | h
    · subst h
      exact Nat.le_trans (minAux_le_start (min a x) ys) (Nat.min_le_right a x)
    · exact ih (min a y) h

theorem minAux_attained (a : Nat) (l : List Nat) : minAux a l = a ∨ minAux a l ∈ l := by
  induction l generalizing a with
  | nil => exact Or.inl rfl
  | cons x xs ih =>
    rcases ih (min a x) with h | h
    · rcases min_choice a x with h' | h'
      · exact Or.inl (by rw [minAux, h, h'])
      · exact Or.inr (by rw [minAux, h, h']; exact List.mem_cons_self x xs)
    · exact Or.inr (List.mem_cons_of_mem x h)

theorem minOrZero_le_mem {x : Nat} {l : List Nat} (hx : x ∈ l) : minOrZero l ≤ x := by
  cases l with
  | nil => cases hx
  | cons y ys =>
    rcases List.mem_cons.mp hx with h | h
    · subst h; exact minAux_le_start x ys
    · exact minAux_le_mem y h

theorem minOrZero_attained {l : List Nat} (hl : l ≠ []) : minOrZero l ∈ l := by
  cases l with
  | nil => exact absurd rfl hl
  | cons y ys =>
    rcases minAux_attained y ys with h | h
    · rw [minOrZero, h]; exact List.mem_cons_self y ys
    · rw [minOrZero]; exact List.mem_cons_of_mem y h

/-! ## Characterisation of the first loop -/

/-- A completed first pass means: the counts are exactly the per-ingredient
quotients, and every recipe entry is present in the pantry with a nonzero
requirement it satisfies. -/
theorem firstLoop_done_spec (P : IngMap) :
    ∀ (R : IngMap) (counts : List Nat), firstLoop P R = .done counts →
      counts = R.map (fun e => (mapGet P e.1).getD 0 / e.2) ∧
      ∀ e ∈ R, ∃ p, mapGet P e.1 = some p ∧ 1 ≤ e.2 ∧ e.2 ≤ p := by
  intro R
  induction R with
  | nil =>
    intro counts h
    simp only [firstLoop] at h
    cases h
    exact ⟨rfl, by intro e he; cases he⟩
  | cons e rest ih =>
    intro counts h
    obtain ⟨i, r⟩ := e
    rw [firstLoop] at h
    cases hg : mapGet P i with
    | none => simp only [hg] at h; cases h
    | some p =>
      simp only [hg] at h
      by_cases hgt : r > p
      · rw [if_pos hgt] at h; cases h
      · rw [if_neg hgt] at h
        by_cases hz : r = 0
        · rw [if_pos hz] at h; cases h
        · rw [if_neg hz] at h
          cases hrec : firstLoop P rest with
          | panicked => simp only [hrec] at h; cases h
          | ret reply => simp only [hrec] at h; cases h
          | done counts' =>
            simp only [hrec] at h
            have hrec2 : firstLoop P rest = .done counts' := hrec
            obtain ⟨hc, hfeas⟩ := ih counts' hrec2
            cases h
            constructor
            · simp [hg, hc]
            · intro e' he'
              rcases List.mem_cons.mp he' with h' | h'
              · subst h'; exact ⟨p, hg, Nat.one_le_iff_ne_zero.mpr hz, Nat.le_of_not_lt hgt⟩
              · exact hfeas e' h'

/-- Every early `return` of the first loop carries `cookies = 0` and the
original, unmodified pantry. -/
theorem firstLoop_ret_spec (P : IngMap) :
    ∀ (R : IngMap) (reply : BakeReply), firstLoop P R = .ret reply → reply = ⟨0, P⟩ := by
  intro R
  induction R with
  | nil => intro reply h; simp only [firstLoop] at h; cases h
  | cons e rest ih =>
    intro reply h
    obtain ⟨i, r⟩ := e
    rw [firstLoop] at h
    cases hg : mapGet P i with
    | none => simp only [hg] at h; cases h; rfl
    | some p =>
      simp only [hg] at h
      by_cases hgt : r > p
      · rw [if_pos hgt] at h; cases h; rfl
      · rw [if_neg hgt] at h
        by_cases hz : r = 0
        · rw [if_pos hz] at h; cases h
        · rw [if_neg hz] at h
          cases hrec : firstLoop P rest with
          | panicked => simp only [hrec] at h; cases h
          | ret reply' => simp only [hrec] at h; cases h; exact ih _ hrec
          | done counts => simp only [hrec] at h; cases h

/-- A fully feasible recipe lets the first loop run to completion. -/
theorem firstLoop_feasible (P : IngMap) :
    ∀ R : IngMap, (∀ e ∈ R, 1 ≤ e.2) →
      (∀ e ∈ R, ∃ p, mapGet P e.1 = some p ∧ e.2 ≤ p) →
      firstLoop P R = .done (R.map (fun e => (mapGet P e.1).getD 0 / e.2)) := by
  intro R
  induction R with
  | nil => intro _ _; rfl
  | cons e rest ih =>
    intro hr hfeas
    obtain ⟨i, r⟩ := e
    obtain ⟨p, hg, hle⟩ := hfeas (i, r) (List.mem_cons_self _ _)
    have hr1 : 1 ≤ r := hr (i, r) (List.mem_cons_self _ _)
    rw [firstLoop]
    simp only [hg]
    rw [if_neg (Nat.not_lt.mpr hle), if_neg (Nat.one_le_iff_ne_zero.mp hr1),
      ih (fun e he => hr e (List.mem_cons_of_mem _ he))
        (fun e he => hfeas e (List.mem_cons_of_mem _ he))]
    simp [hg]

/-- An infeasible entry (absent from the pantry, or underfunded) makes the
first loop return `{cookies: 0, pantry: <original>}` — provided no earlier
zero-requirement entry panics, which the `1 ≤ e.2` hypothesis rules out. -/
theorem firstLoop_infeasible (P : IngMap) :
    ∀ R : IngMap, (∀ e ∈ R, 1 ≤ e.2) →
      (∃ e ∈ R, ∀ p, mapGet P e.1 = some p → p < e.2) →
      firstLoop P R = .ret ⟨0, P⟩ := by
  intro R
  induction R with
  | nil => rintro _ ⟨e, he, _⟩; cases he
  | cons e rest ih =>
    rintro hr ⟨w, hw, hbad⟩
    obtain ⟨i, r⟩ := e
    rw [firstLoop]
    cases hg : mapGet P i with
    | none => simp only [hg]
    | some p =>
      simp only [hg]
      by_cases hgt : r > p
      · rw [if_pos hgt]
      · rw [if_neg hgt]
        have hr1 : 1 ≤ r := hr (i, r) (List.mem_cons_self _ _)
        rw [if_neg (Nat.one_le_iff_ne_zero.mp hr1)]
        have hwrest : w ∈ rest := by
          rcases List.mem_cons.mp hw with h | h
          · subst h
            exact absurd (hbad p hg) hgt
          · exact h
        rw [ih (fun e he => hr e (List.mem_cons_of_mem _ he)) ⟨w, hwrest, hbad⟩]

/-! ## Characterisation of the second loop -/

/-- When every recipe ingredient is stocked well enough, the second loop
succeeds and produces exactly the residual map. -/
theorem secondLoop_spec (P : IngMap) (c : Nat) :
    ∀ R : IngMap, (∀ e ∈ R, ∃ p, mapGet P e.1 = some p ∧ e.2 * c ≤ p) →
      secondLoop P c R = some (R.map (fun e => (e.1, (mapGet P e.1).getD 0 - e.2 * c))) := by
  intro R
  induction R with
  | nil => intro _; rfl
  | cons e rest ih =>
    intro hfeas
    obtain ⟨i, r⟩ := e
    obtain ⟨p, hg, hle⟩ := hfeas (i, r) (List.mem_cons_self _ _)
    rw [secondLoop]
    simp only [hg]
    rw [if_pos hle, ih (fun e he => hfeas e (List.mem_cons_of_mem _ he))]
    simp [hg]

/-- After a completed first pass, every recipe entry's stock covers
`requirement * count` for the computed count. -/
theorem firstLoop_done_mul_le (R P : IngMap) (counts : List Nat)
    (h : firstLoop P R = .done counts) :
    ∀ e ∈ R, ∃ p, mapGet P e.1 = some p ∧ e.2 * minOrZero counts ≤ p := by
  obtain ⟨hc, hfeas⟩ := firstLoop_done_spec P R counts h
  intro e he
  obtain ⟨p, hp, hr1, hle⟩ := hfeas e he
  refine ⟨p, hp, ?_⟩
  have hcle : minOrZero counts ≤ p / e.2 := by
    have hmem : (mapGet P e.1).getD 0 / e.2 ∈ counts := by
      rw [hc]; exact List.mem_map_of_mem _ he
    have := minOrZero_le_mem hmem
    rwa [hp, Option.getD_some] at this
  exact Nat.le_trans (Nat.mul_le_mul_left e.2 hcle)
    (by rw [Nat.mul_comm]; exact Nat.div_mul_le_self p e.2)

/-- Looking a key up in a key-preserving image of a map with distinct keys. -/
theorem mapGet_map_of_nodup (f : String × Nat → Nat) :
    ∀ R : IngMap, (R.map Prod.fst).Nodup → ∀ e ∈ R,
      mapGet (R.map (fun e => (e.1, f e))) e.1 = some (f e) := by
  intro R
  induction R with
  | nil => intro _ e he; cases he
  | cons a rest ih =>
    intro hnd e he
    rw [List.map_cons, List.nodup_cons] at hnd
    rcases List.mem_cons.mp he with h | h
    · subst h
      simp [mapGet]
    · have hne : a.1 ≠ e.1 := fun hEq => hnd.1 (hEq ▸ List.mem_map_of_mem Prod.fst h)
      rw [List.map_cons, mapGet, if_neg hne]
      exact ih hnd.2 e h

/-! ## The claims about the Allocator -/

/-- Claim C1 (amended: the required quantities must additionally all be at
least 1 — a zero requirement makes the source panic, see
`claim1_counterexample`): for every recipe `R` and pantry `P` in which every
ingredient of `R` is present with at least the required quantity, the
allocator returns a reply whose `cookies` is the minimum over the ingredients
of `R` of `⌊P[i]/R[i]⌋`: it is a lower bound of every per-ingredient quotient
and, when `R` is nonempty, it is attained by one of them. -/
theorem claim1_cookies_eq_min (R P : IngMap)
    (hr : ∀ e ∈ R, 1 ≤ e.2)
    (hfeas : ∀ e ∈ R, ∃ p, mapGet P e.1 = some p ∧ e.2 ≤ p) :
    ∃ reply, calculate_cookies ⟨R, P⟩ = some reply ∧
      (∀ e ∈ R, ∀ p, mapGet P e.1 = some p → reply.cookies ≤ p / e.2) ∧
      (R ≠ [] → ∃ e ∈ R, ∃ p, mapGet P e.1 = some p ∧ reply.cookies = p / e.2) := by
  have hdone := firstLoop_feasible P R hr hfeas
  have hmul := firstLoop_done_mul_le R P _ hdone
  have hsec := secondLoop_spec P (minOrZero (R.map fun e => (mapGet P e.1).getD 0 / e.2)) R hmul
  refine ⟨⟨minOrZero (R.map fun e => (mapGet P e.1).getD 0 / e.2),
    R.map fun e => (e.1, (mapGet P e.1).getD 0
      - e.2 * minOrZero (R.map fun e => (mapGet P e.1).getD 0 / e.2))⟩, ?_, ?_, ?_⟩
  · rw [calculate_cookies]
    simp only [hdone, hsec]
  · intro e he p hp
    have hmem : (mapGet P e.1).getD 0 / e.2 ∈ R.map fun e => (mapGet P e.1).getD 0 / e.2 :=
      List.mem_map_of_mem _ he
    have := minOrZero_le_mem hmem
    rwa [hp, Option.getD_some] at this
  · intro hne
    have hcounts : (R.map fun e => (mapGet P e.1).getD 0 / e.2) ≠ [] := by
      simpa using hne
    obtain ⟨e, he, heq⟩ := List.mem_map.mp (minOrZero_attained hcounts)
    obtain ⟨p, hp, _⟩ := hfeas e he
    exact ⟨e, he, p, hp, by rw [← heq, hp, Option.getD_some]⟩

/-- Claim C1, witness at `R = {flour: 2, sugar: 3}`, `P = {flour: 5, sugar: 9}`. -/
theorem claim1_witness :
    (∀ e ∈ ([("flour", 2), ("sugar", 3)] : IngMap), 1 ≤ e.2) ∧
    ∃ reply,
      calculate_cookies ⟨[("flour", 2), ("sugar", 3)], [("flour", 5), ("sugar", 9)]⟩
        = some reply ∧
      (∀ e ∈ ([("flour", 2), ("sugar", 3)] : IngMap), ∀ p,
        mapGet [("flour", 5), ("sugar", 9)] e.1 = some p → reply.cookies ≤ p / e.2) ∧
      (([("flour", 2), ("sugar", 3)] : IngMap) ≠ [] →
        ∃ e ∈ ([("flour", 2), ("sugar", 3)] : IngMap), ∃ p,
          mapGet [("flour", 5), ("sugar", 9)] e.1 = some p ∧ reply.cookies = p / e.2) :=
  ⟨by decide, claim1_cookies_eq_min _ _ (by decide) (by
    intro e he
    rcases List.mem_cons.mp he with rfl | he
    · exact ⟨5, by decide, by decide⟩
    · rcases List.mem_cons.mp he with rfl | he
      · exact ⟨9, by decide, by decide⟩
      · cases he)⟩

/-- Claim C1, counterexample to the claim as stated: at
`R = {a: 0}`, `P = {a: 0}` every ingredient of `R` is present in `P` with
quantity at least its requirement, yet the allocator produces no reply at all
(the source panics dividing by the zero requirement). -/
theorem claim1_counterexample :
    (∀ e ∈ ([("a", 0)] : IngMap),
      (mapGet ([("a", 0)] : IngMap) e.1).isSome ∧
      e.2 ≤ (mapGet ([("a", 0)] : IngMap) e.1).getD 0) ∧
    calculate_cookies ⟨[("a", 0)], [("a", 0)]⟩ = none := by decide

/-- Claim C2 (amended: the required quantities must additionally all be at
least 1 — otherwise an earlier zero-requirement ingredient panics before the
infeasible one is reached, see `claim2_counterexample`): if some ingredient of
`R` is absent from `P` or under-stocked, the allocator returns `cookies = 0`
together with the original pantry, unmodified and unfiltered. -/
theorem claim2_infeasible (R P : IngMap)
    (hr : ∀ e ∈ R, 1 ≤ e.2)
    (hinf : ∃ e ∈ R, ∀ p, mapGet P e.1 = some p → p < e.2) :
    calculate_cookies ⟨R, P⟩ = some ⟨0, P⟩ := by
  rw [calculate_cookies]
  simp only [firstLoop_infeasible P R hr hinf]

/-- Claim C2, witness at the spec's concrete scenario 2:
`R = {flour: 2, sugar: 1}`, `P = {flour: 5}` (sugar absent). -/
theorem claim2_witness :
    (∀ e ∈ ([("flour", 2), ("sugar", 1)] : IngMap), 1 ≤ e.2) ∧
    calculate_cookies ⟨[("flour", 2), ("sugar", 1)], [("flour", 5)]⟩
      = some ⟨0, [("flour", 5)]⟩ :=
  ⟨by decide, claim2_infeasible _ _ (by decide)
    ⟨("sugar", 1), by decide, by
      intro p hp
      rw [show mapGet [("flour", 5)] "sugar" = none from by decide] at hp
      cases hp⟩⟩

/-- Claim C2, counterexample to the claim as stated: at
`R = {a: 0, b: 2}`, `P = {a: 1}` the ingredient `b` of `R` is absent from
`P`, yet the allocator does not return `{cookies: 0, pantry: P}` — iterating
the recipe reaches the zero-requirement entry `a` first and the source panics
on division by zero. -/
theorem claim2_counterexample :
    ("b", 2) ∈ ([("a", 0), ("b", 2)] : IngMap) ∧
    mapGet ([("a", 1)] : IngMap) "b" = none ∧
    calculate_cookies ⟨[("a", 0), ("b", 2)], [("a", 1)]⟩ ≠ some ⟨0, [("a", 1)]⟩ := by
  decide

/-- Claim C3: when the allocator returns a count `c > 0`, the residual pantry
maps every ingredient of `R` to `P[i] - R[i]*c`, and contains no key outside
the keys of `R`. -/
theorem claim3_residual (R P : IngMap) (reply : BakeReply)
    (hnd : (R.map Prod.fst).Nodup)
    (h : calculate_cookies ⟨R, P⟩ = some reply)
    (hpos : 0 < reply.cookies) :
    (∀ e ∈ R, ∃ p, mapGet P e.1 = some p ∧ e.2 * reply.cookies ≤ p ∧
      mapGet reply.pantry e.1 = some (p - e.2 * reply.cookies)) ∧
    ∀ k ∈ reply.pantry.map Prod.fst, k ∈ R.map Prod.fst := by
  rw [calculate_cookies] at h
  cases hfl : firstLoop P R with
  | panicked => simp only [hfl] at h; cases h
  | ret reply' =>
    simp only [hfl] at h
    cases h
    rw [firstLoop_ret_spec P R _ hfl] at hpos
    exact absurd hpos (Nat.lt_irrefl 0)
  | done counts =>
    simp only [hfl] at h
    have hmul := firstLoop_done_mul_le R P counts hfl
    have hsec := secondLoop_spec P (minOrZero counts) R hmul
    rw [hsec] at h
    cases h
    constructor
    · intro e he
      obtain ⟨p, hp, hle⟩ := hmul e he
      refine ⟨p, hp, hle, ?_⟩
      have hg := mapGet_map_of_nodup
        (fun e => (mapGet P e.1).getD 0 - e.2 * minOrZero counts) R hnd e he
      simpa [hp] using hg
    · intro k hk
      simpa using hk

/-- Claim C3, witness at `R = {flour: 2}`, `P = {flour: 5, milk: 3}`:
count 2, residual `{flour: 1}` (milk is dropped). -/
theorem claim3_witness :
    (∀ e ∈ ([("flour", 2)] : IngMap), ∃ p,
      mapGet [("flour", 5), ("milk", 3)] e.1 = some p ∧
      e.2 * (2 : Nat) ≤ p ∧
      mapGet [("flour", 1)] e.1 = some (p - e.2 * 2)) ∧
    ∀ k ∈ ([("flour", 1)] : IngMap).map Prod.fst,
      k ∈ ([("flour", 2)] : IngMap).map Prod.fst :=
  claim3_residual [("flour", 2)] [("flour", 5), ("milk", 3)] ⟨2, [("flour", 1)]⟩
    (by decide) (by decide) (by decide)

/-- Claim C4 (the code bug): the allocator is not total — at
`recipe = {flour: 0}`, `pantry = {flour: 5}` the source reaches
`pantry_amount / recipe_amount` with `recipe_amount = 0`, a `u64` division by
zero, which panics instead of excluding the ingredient from the minimum. -/
theorem claim4_zero_requirement_panics :
    calculate_cookies ⟨[("flour", 0)], [("flour", 5)]⟩ = none := by decide

/-- Claim C9: with an empty recipe the allocator returns `cookies = 0`
(and an empty residual pantry). -/
theorem claim9_empty_recipe (P : IngMap) :
    calculate_cookies ⟨[], P⟩ = some ⟨0, []⟩ := rfl

/-- Claim C10: for a recipe whose requirements are all at least 1, whenever
the feasibility pass completes without short-circuiting, every ingredient of
`R` is stocked with at least `R[i] * c` for the computed count `c`, and the
residual pass succeeds: its pantry lookups and unsigned subtractions cannot
fail. -/
theorem claim10_residual_pass_safe (R P : IngMap) (counts : List Nat)
    (_hr : ∀ e ∈ R, 1 ≤ e.2)
    (h : firstLoop P R = .done counts) :
    (∀ e ∈ R, ∃ p, mapGet P e.1 = some p ∧ e.2 * minOrZero counts ≤ p) ∧
    ∃ res, secondLoop P (minOrZero counts) R = some res := by
  have hmul := firstLoop_done_mul_le R P counts h
  exact ⟨hmul, ⟨_, secondLoop_spec P _ R hmul⟩⟩

/-- Claim C10, witness at `R = {flour: 2}`, `P = {flour: 5}`, whose first
pass completes with counts `[2]`. -/
theorem claim10_witness :
    (∀ e ∈ ([("flour", 2)] : IngMap), 1 ≤ e.2) ∧
    firstLoop [("flour", 5)] [("flour", 2)] = .done [2] ∧
    ((∀ e ∈ ([("flour", 2)] : IngMap), ∃ p,
        mapGet [("flour", 5)] e.1 = some p ∧ e.2 * minOrZero [2] ≤ p) ∧
      ∃ res, secondLoop [("flour", 5)] (minOrZero [2]) [("flour", 2)] = some res) :=
  ⟨by decide, by decide,
    claim10_residual_pass_safe [("flour", 2)] [("flour", 5)] [2] (by decide) (by decide)⟩

/-! ## The token split: `str::split_once` -/

/-- `str::split_once(sep)` (line 163 of the source): the pieces before and
after the first occurrence of the separator, or `none` when it is absent. -/
def splitOnce (sep : Char) : List Char → Option (List Char × List Char)
  | [] => none
  | c :: rest =>
    if c = sep then some ([], rest)
    else
      match splitOnce sep rest with
      | some (a, b) => some (c :: a, b)
      | none => none

theorem splitOnce_append (sep : Char) :
    ∀ a : List Char, sep ∉ a → ∀ b, splitOnce sep (a ++ sep :: b) = some (a, b) := by
  intro a
  induction a with
  | nil => intro _ b; simp [splitOnce]
  | cons c rest ih =>
    intro hmem b
    have hc : ¬ c = sep := fun h => hmem (h ▸ List.mem_cons_self c rest)
    rw [List.cons_append, splitOnce, if_neg hc,
      ih (fun h => hmem (List.mem_cons_of_mem c h)) b]

theorem splitOnce_some_spec (sep : Char) :
    ∀ l pre post, splitOnce sep l = some (pre, post) →
      l = pre ++ sep :: post ∧ sep ∉ pre := by
  intro l
  induction l with
  | nil => intro pre post h; cases h
  | cons c rest ih =>
    intro pre post h
    rw [splitOnce] at h
    by_cases hc : c = sep
    · rw [if_pos hc] at h
      cases h
      simp [hc]
    · rw [if_neg hc] at h
      cases hs : splitOnce sep rest with
      | none => rw [hs] at h; cases h
      | some ab =>
        obtain ⟨a, b⟩ := ab
        rw [hs] at h
        cases h
        obtain ⟨h1, h2⟩ := ih a post hs
        refine ⟨by rw [h1, List.cons_append], ?_⟩
        intro hmem
        rcases List.mem_cons.mp hmem with h | h
        · exact hc h.symm
        · exact h2 h

theorem splitOnce_eq_none_iff (sep : Char) :
    ∀ l : List Char, splitOnce sep l = none ↔ sep ∉ l := by
  intro l
  induction l with
  | nil => simp [splitOnce]
  | cons c rest ih =>
    rw [splitOnce]
    by_cases hc : c = sep
    · rw [if_pos hc]
      simp [hc]
    · rw [if_neg hc]
      cases hs : splitOnce sep rest with
      | none =>
        have hrest : sep ∉ rest := ih.mp hs
        simp [List.mem_cons, hrest, Ne.symm hc]
      | some ab =>
        obtain ⟨a, b⟩ := ab
        have hsep : sep ∈ rest := by
          obtain ⟨h1, _⟩ := splitOnce_some_spec sep rest a b hs
          rw [h1]
          exact List.mem_append_right a (List.mem_cons_self sep b)
        constructor
        · intro h; cases h
        · intro hmem
          exact absurd (List.mem_cons_of_mem c hsep) hmem

/-! ## Base64 (`general_purpose::STANDARD`) -/

/-- Modelled from the spec: the value a character denotes in the standard
Base64 alphabet (the `base64` crate used at line 168 of the source is not part
of this repository). -/
def b64Val (c : Char) : Option Nat :=
  if 'A' ≤ c ∧ c ≤ 'Z' then some (c.toNat - 65)
  else if 'a' ≤ c ∧ c ≤ 'z' then some (c.toNat - 97 + 26)
  else if '0' ≤ c ∧ c ≤ '9' then some (c.toNat - 48 + 52)
  else if c = '+' then some 62
  else if c = '/' then some 63
  else none

/-- Modelled from the spec: the standard-alphabet character of a sextet. -/
def b64Char (n : Nat) : Char :=
  if n < 26 then Char.ofNat (65 + n)
  else if n < 52 then Char.ofNat (97 + (n - 26))
  else if n < 62 then Char.ofNat (48 + (n - 52))
  else if n = 62 then '+'
  else '/'

/-- Modelled from the spec: strict padded standard Base64 decoding as the
crate's `STANDARD` engine performs it — the input length must be a multiple
of four, only the final quantum may end in one or two `=` padding characters,
and the unused trailing bits of a padded final quantum must be zero. -/
def b64Decode : List Char → Option (List Nat)
  | [] => some []
  | c0 :: c1 :: c2 :: c3 :: rest =>
    match b64Val c0, b64Val c1 with
    | some v0, some v1 =>
      if c2 = '=' then
        if c3 = '=' ∧ rest = [] then
          if v1 % 16 = 0 then some [v0 * 4 + v1 / 16] else none
        else none
      else
        match b64Val c2 with
        | some v2 =>
          if c3 = '=' then
            if rest = [] then
              if v2 % 4 = 0 then some [v0 * 4 + v1 / 16, v1 % 16 * 16 + v2 / 4]
              else none
            else none
          else
            match b64Val c3 with
            | some v3 =>
              match b64Decode rest with
              | some bs =>
                some ((v0 * 4 + v1 / 16) :: (v1 % 16 * 16 + v2 / 4) :: (v2 % 4 * 64 + v3) :: bs)
              | none => none
            | none => none
        | none => none
    | _, _ => none
  | _ => none

/-- Modelled from the spec: canonical padded standard Base64 encoding. -/
def b64Encode : List Nat → List Char
  | [] => []
  | [b0] => [b64Char (b0 / 4), b64Char (b0 % 4 * 16), '=', '=']
  | [b0, b1] => [b64Char (b0 / 4), b64Char (b0 % 4 * 16 + b1 / 16), b64Char (b1 % 16 * 4), '=']
  | b0 :: b1 :: b2 :: rest =>
    b64Char (b0 / 4) :: b64Char (b0 % 4 * 16 + b1 / 16) ::
      b64Char (b1 % 16 * 4 + b2 / 64) :: b64Char (b2 % 64) :: b64Encode rest

theorem b64Val_b64Char : ∀ n, n < 64 → b64Val (b64Char n) = some n := by decide

theorem b64Char_ne_pad : ∀ n, n < 64 → b64Char n ≠ '=' := by decide

theorem b64_roundtrip : ∀ bs : List Nat, (∀ b ∈ bs, b < 256) →
    b64Decode (b64Encode bs) = some bs
  | [], _ => rfl
  | [b0], h => by
    have h0 : b0 < 256 := h b0 (by simp)
    rw [b64Encode]
    simp only [b64Decode, b64Val_b64Char (b0 / 4) (by omega),
      b64Val_b64Char (b0 % 4 * 16) (by omega), reduceIte]
    rw [if_pos (by omega : b0 % 4 * 16 % 16 = 0)]
    simp
    omega
  | [b0, b1], h => by
    have h0 : b0 < 256 := h b0 (by simp)
    have h1 : b1 < 256 := h b1 (by simp)
    rw [b64Encode]
    simp only [b64Decode, b64Val_b64Char (b0 / 4) (by omega),
      b64Val_b64Char (b0 % 4 * 16 + b1 / 16) (by omega)]
    rw [if_neg (b64Char_ne_pad (b1 % 16 * 4) (by omega))]
    simp only [b64Val_b64Char (b1 % 16 * 4) (by omega), reduceIte]
    rw [if_pos (by omega : b1 % 16 * 4 % 4 = 0)]
    simp
    omega
  | b0 :: b1 :: b2 :: rest, h => by
    have h0 : b0 < 256 := h b0 (by simp)
    have h1 : b1 < 256 := h b1 (by simp)
    have h2 : b2 < 256 := h b2 (by simp)
    have ih := b64_roundtrip rest (fun b hb => h b (by simp [hb]))
    rw [b64Encode]
    simp only [b64Decode, b64Val_b64Char (b0 / 4) (by omega),
      b64Val_b64Char (b0 % 4 * 16 + b1 / 16) (by omega)]
    rw [if_neg (b64Char_ne_pad (b1 % 16 * 4 + b2 / 64) (by omega))]
    simp only [b64Val_b64Char (b1 % 16 * 4 + b2 / 64) (by omega)]
    rw [if_neg (b64Char_ne_pad (b2 % 64) (by omega))]
    simp only [b64Val_b64Char (b2 % 64) (by omega), ih]
    simp
    omega
termination_by bs _ => bs.length

/-! ## UTF-8

`serde_json::from_slice` consumes raw bytes and insists on UTF-8; the byte
layer is modelled as a UTF-8 validation/decoding pass in front of a character
level JSON parser. -/

/-- Modelled from the spec: UTF-8 encoding of one scalar value. -/
def utf8EncodeChar (c : Char) : List Nat :=
  if c.toNat < 128 then [c.toNat]
  else if c.toNat < 2048 then [192 + c.toNat / 64, 128 + c.toNat % 64]
  else if c.toNat < 65536 then
    [224 + c.toNat / 4096, 128 + c.toNat / 64 % 64, 128 + c.toNat % 64]
  else
    [240 + c.toNat / 262144, 128 + c.toNat / 4096 % 64,
      128 + c.toNat / 64 % 64, 128 + c.toNat % 64]

/-- Modelled from the spec: UTF-8 encoding of a character sequence. -/
def utf8Encode : List Char → List Nat
  | [] => []
  | c :: rest => utf8EncodeChar c ++ utf8Encode rest

/-- Continuation handling of a 2-byte UTF-8 sequence. -/
def utf8Decode2 (b : Nat) : List Nat → Option (Char × List Nat)
  | b1 :: r =>
    if 128 ≤ b1 ∧ b1 < 192 then some (Char.ofNat ((b - 192) * 64 + (b1 - 128)), r)
    else none
  | [] => none

/-- Continuation handling of a 3-byte UTF-8 sequence (overlong and surrogate
forms rejected). -/
def utf8Decode3 (b : Nat) : List Nat → Option (Char × List Nat)
  | b1 :: b2 :: r =>
    if (128 ≤ b1 ∧ b1 < 192) ∧ (128 ≤ b2 ∧ b2 < 192) ∧
        (b = 224 → 160 ≤ b1) ∧ (b = 237 → b1 < 160) then
      some (Char.ofNat ((b - 224) * 4096 + (b1 - 128) * 64 + (b2 - 128)), r)
    else none
  | _ => none

/-- Continuation handling of a 4-byte UTF-8 sequence (overlong forms and
values beyond U+10FFFF rejected). -/
def utf8Decode4 (b : Nat) : List Nat → Option (Char × List Nat)
  | b1 :: b2 :: b3 :: r =>
    if (128 ≤ b1 ∧ b1 < 192) ∧ (128 ≤ b2 ∧ b2 < 192) ∧ (128 ≤ b3 ∧ b3 < 192) ∧
        (b = 240 → 144 ≤ b1) ∧ (b = 244 → b1 < 144) then
      some (Char.ofNat
        ((b - 240) * 262144 + (b1 - 128) * 4096 + (b2 - 128) * 64 + (b3 - 128)), r)
    else none
  | _ => none

/-- Modelled from the spec: strict UTF-8 decoding of one scalar value
(rejecting overlong forms, surrogates, and values beyond U+10FFFF). -/
def utf8DecodeChar : List Nat → Option (Char × List Nat)
  | [] => none
  | b :: rest =>
    if b < 128 then some (Char.ofNat b, rest)
    else if b < 194 then none
    else if b < 224 then utf8Decode2 b rest
    else if b < 240 then utf8Decode3 b rest
    else if b < 245 then utf8Decode4 b rest
    else none

/-- Fuelled UTF-8 decoding loop (each step consumes at least one byte, so the
byte count is enough fuel). -/
def utf8DecodeLoop (fuel : Nat) (bs : List Nat) : Option (List Char) :=
  match bs with
  | [] => some []
  | b :: rest =>
    match fuel with
    | 0 => none
    | fuel + 1 =>
      match utf8DecodeChar (b :: rest) with
      | none => none
      | some (c, r) =>
        match utf8DecodeLoop fuel r with
        | some cs => some (c :: cs)
        | none => none

/-- Modelled from the spec: strict UTF-8 decoding of a byte sequence. -/
def utf8Decode (bs : List Nat) : Option (List Char) := utf8DecodeLoop bs.length bs

theorem utf8EncodeChar_lt (c : Char) : ∀ b ∈ utf8EncodeChar c, b < 256 := by
  have hv : c.toNat < 55296 ∨ (57343 < c.toNat ∧ c.toNat < 1114112) := c.valid
  rw [utf8EncodeChar]
  by_cases h1 : c.toNat < 128
  · rw [if_pos h1]; intro b hb; simp at hb; omega
  · rw [if_neg h1]
    by_cases h2 : c.toNat < 2048
    · rw [if_pos h2]; intro b hb; simp at hb; rcases hb with rfl | rfl <;> omega
    · rw [if_neg h2]
      by_cases h3 : c.toNat < 65536
      · rw [if_pos h3]; intro b hb; simp at hb; rcases hb with rfl | rfl | rfl <;> omega
      · rw [if_neg h3]; intro b hb; simp at hb; rcases hb with rfl | rfl | rfl | rfl <;> omega

theorem utf8Encode_lt : ∀ cs : List Char, ∀ b ∈ utf8Encode cs, b < 256 := by
  intro cs
  induction cs with
  | nil => intro b hb; cases hb
  | cons c rest ih =>
    intro b hb
    rw [utf8Encode] at hb
    rcases List.mem_append.mp hb with h | h
    · exact utf8EncodeChar_lt c b h
    · exact ih b h

theorem utf8EncodeChar_ne_nil (c : Char) : utf8EncodeChar c ≠ [] := by
  rw [utf8EncodeChar]
  by_cases h1 : c.toNat < 128
  · rw [if_pos h1]; simp
  · rw [if_neg h1]
    by_cases h2 : c.toNat < 2048
    · rw [if_pos h2]; simp
    · rw [if_neg h2]
      by_cases h3 : c.toNat < 65536
      · rw [if_pos h3]; simp
      · rw [if_neg h3]; simp

/-- Decoding inverts the encoding of a single character, whatever follows. -/
theorem utf8_char_roundtrip (c : Char) (rest : List Nat) :
    utf8DecodeChar (utf8EncodeChar c ++ rest) = some (c, rest) := by
  have hv : c.toNat < 55296 ∨ (57343 < c.toNat ∧ c.toNat < 1114112) := c.valid
  have hofNat : Char.ofNat c.toNat = c := Char.ofNat_toNat c
  rw [utf8EncodeChar]
  by_cases h1 : c.toNat < 128
  · rw [if_pos h1]
    simp only [List.cons_append, List.nil_append]
    rw [utf8DecodeChar, if_pos h1, hofNat]
  · rw [if_neg h1]
    by_cases h2 : c.toNat < 2048
    · rw [if_pos h2]
      simp only [List.cons_append, List.nil_append]
      rw [utf8DecodeChar]
      rw [if_neg (by omega)]
      rw [if_neg (by omega)]
      rw [if_pos (by omega)]
      rw [utf8Decode2]
      rw [if_pos (by omega)]
      rw [show (192 + c.toNat / 64 - 192) * 64 + (128 + c.toNat % 64 - 128) = c.toNat by omega]
      rw [hofNat]
    · rw [if_neg h2]
      by_cases h3 : c.toNat < 65536
      · rw [if_pos h3]
        simp only [List.cons_append, List.nil_append]
        rw [utf8DecodeChar]
        rw [if_neg (by omega)]
        rw [if_neg (by omega)]
        rw [if_neg (by omega)]
        rw [if_pos (by omega)]
        rw [utf8Decode3]
        rw [if_pos (by omega)]
        rw [show (224 + c.toNat / 4096 - 224) * 4096 + (128 + c.toNat / 64 % 64 - 128) * 64
            + (128 + c.toNat % 64 - 128) = c.toNat by omega]
        rw [hofNat]
      · rw [if_neg h3]
        simp only [List.cons_append, List.nil_append]
        rw [utf8DecodeChar]
        rw [if_neg (by omega)]
        rw [if_neg (by omega)]
        rw [if_neg (by omega)]
        rw [if_neg (by omega)]
        rw [if_pos (by omega)]
        rw [utf8Decode4]
        rw [if_pos (by omega)]
        rw [show (240 + c.toNat / 262144 - 240) * 262144 + (128 + c.toNat / 4096 % 64 - 128) * 4096
            + (128 + c.toNat / 64 % 64 - 128) * 64 + (128 + c.toNat % 64 - 128) = c.toNat by omega]
        rw [hofNat]

theorem utf8_roundtrip_loop :
    ∀ (cs : List Char) (fuel : Nat), (utf8Encode cs).length ≤ fuel →
      utf8DecodeLoop fuel (utf8Encode cs) = some cs := by
  intro cs
  induction cs with
  | nil => intro fuel _; simp [utf8Encode, utf8DecodeLoop]
  | cons c rest ih =>
    intro fuel hf
    have hne := utf8EncodeChar_ne_nil c
    obtain ⟨b, bs, hb⟩ := List.exists_cons_of_ne_nil hne
    have hlen : (utf8Encode (c :: rest)).length
        = (utf8EncodeChar c).length + (utf8Encode rest).length := by
      rw [utf8Encode, List.length_append]
    cases fuel with
    | zero =>
      exfalso
      rw [hlen, hb] at hf
      simp at hf
    | succ f =>
      have hdec := utf8_char_roundtrip c (utf8Encode rest)
      rw [hb, List.cons_append] at hdec
      have hrest : (utf8Encode rest).length ≤ f := by
        rw [hlen, hb] at hf
        simp at hf
        omega
      rw [utf8Encode, hb, List.cons_append, utf8DecodeLoop]
      simp only [hdec, ih f hrest]

/-- Decoding inverts encoding for every character sequence. -/
theorem utf8_roundtrip (cs : List Char) : utf8Decode (utf8Encode cs) = some cs :=
  utf8_roundtrip_loop cs (utf8Encode cs).length (Nat.le_refl _)

/-! ## JSON values

`serde_json` is an external crate; the JSON document model below follows the
spec's prescription (§9) of a closed tagged value type.  Numbers are modelled
as exact integers: fractional JSON numbers are IEEE-754 doubles in
`serde_json` and sit outside a shallow embedding. -/

/-- Modelled from the spec: the closed JSON value type (numbers restricted to
integers, see the section comment). -/
inductive Json where
  | null : Json
  | bool : Bool → Json
  | num : Int → Json
  | str : String → Json
  | arr : List Json → Json
  | obj : List (String × Json) → Json

/-- The two brace characters, named so they never appear in string literals. -/
def lbrace : Char := Char.ofNat 123

def rbrace : Char := Char.ofNat 125

def isWsChar (c : Char) : Bool := c = ' ' || c = '\t' || c = '\n' || c = '\r'

def isDigitChar (c : Char) : Bool := 48 ≤ c.toNat && c.toNat ≤ 57

def digitVal (c : Char) : Nat := c.toNat - 48

def digitChar (d : Nat) : Char := Char.ofNat (48 + d)

def skipWs : List Char → List Char
  | [] => []
  | c :: rest => if isWsChar c then skipWs rest else c :: rest

/-- The longest digit run at the head of the input, and the remainder. -/
def spanDigits : List Char → List Char × List Char
  | [] => ([], [])
  | c :: rest =>
    if isDigitChar c then
      match spanDigits rest with
      | (ds, r) => (c :: ds, r)
    else ([], c :: rest)

def digitsVal (ds : List Char) : Nat := ds.foldl (fun a c => a * 10 + digitVal c) 0

/-- Decimal digit characters of a natural number, most significant first. -/
def natChars (n : Nat) : List Char :=
  if n = 0 then ['0'] else (Nat.digits 10 n).reverse.map digitChar

/-- Decimal rendering of an integer. -/
def intChars (i : Int) : List Char :=
  if i < 0 then '-' :: natChars i.natAbs else natChars i.natAbs

def hexDigitChar (d : Nat) : Char :=
  if d < 10 then Char.ofNat (48 + d) else Char.ofNat (87 + d)

def hexVal (c : Char) : Option Nat :=
  if 48 ≤ c.toNat ∧ c.toNat ≤ 57 then some (c.toNat - 48)
  else if 97 ≤ c.toNat ∧ c.toNat ≤ 102 then some (c.toNat - 87)
  else if 65 ≤ c.toNat ∧ c.toNat ≤ 70 then some (c.toNat - 55)
  else none

def hex4 (h1 h2 h3 h4 : Char) : Option Nat :=
  match hexVal h1, hexVal h2, hexVal h3, hexVal h4 with
  | some d1, some d2, some d3, some d4 => some (((d1 * 16 + d2) * 16 + d3) * 16 + d4)
  | _, _, _, _ => none

/-- The `\u00XY` escape of a control character. -/
def controlEscape (n : Nat) : List Char :=
  '\\' :: 'u' :: '0' :: '0' :: hexDigitChar (n / 16) :: [hexDigitChar (n % 16)]

/-- JSON escaping of one character (quote, backslash, and control characters;
control characters are emitted in `\u00XY` form). -/
def escapeChar (c : Char) : List Char :=
  if c = '\"' then ['\\', '\"']
  else if c = '\\' then ['\\', '\\']
  else if c.toNat < 32 then controlEscape c.toNat
  else [c]

def escapeList : List Char → List Char
  | [] => []
  | c :: rest => escapeChar c ++ escapeList rest

def renderString (s : String) : List Char := '\"' :: (escapeList s.toList ++ ['\"'])

/-- The characters of the three JSON keyword literals. -/
def nullChars : List Char := ['n', 'u', 'l', 'l']

def trueChars : List Char := ['t', 'r', 'u', 'e']

def falseChars : List Char := ['f', 'a', 'l', 's', 'e']

mutual

/-- Compact rendering of a JSON value, `serde_json::to_vec` style (before the
UTF-8 byte encoding). -/
def renderJson : Json → List Char
  | .null => nullChars
  | .bool true => trueChars
  | .bool false => falseChars
  | .num i => intChars i
  | .str s => renderString s
  | .arr es => '[' :: (renderArr es ++ [']'])
  | .obj ms => lbrace :: (renderObj ms ++ [rbrace])

def renderArr : List Json → List Char
  | [] => []
  | [e] => renderJson e
  | e :: e2 :: rest => renderJson e ++ ',' :: renderArr (e2 :: rest)

def renderObj : List (String × Json) → List Char
  | [] => []
  | [(k, v)] => renderString k ++ ':' :: renderJson v
  | (k, v) :: m2 :: rest => renderString k ++ ':' :: (renderJson v ++ ',' :: renderObj (m2 :: rest))

end

/-- The single-character escapes JSON admits. -/
def escDecode (e : Char) : Option Char :=
  if e = '\"' then some '\"'
  else if e = '\\' then some '\\'
  else if e = '/' then some '/'
  else if e = 'b' then some (Char.ofNat 8)
  else if e = 'f' then some (Char.ofNat 12)
  else if e = 'n' then some '\n'
  else if e = 'r' then some '\r'
  else if e = 't' then some '\t'
  else none

mutual

/-- Body of a JSON string after the opening quote: raw characters until the
closing quote, escapes handled, unescaped control characters rejected. -/
def parseStringBody : List Char → Option (List Char × List Char)
  | [] => none
  | c :: rest =>
    if c = '\"' then some ([], rest)
    else if c = '\\' then parseEscBody rest
    else if c.toNat < 32 then none
    else
      match parseStringBody rest with
      | some p => some (c :: p.1, p.2)
      | none => none

/-- The character(s) after a backslash inside a string. -/
def parseEscBody : List Char → Option (List Char × List Char)
  | [] => none
  | e :: rest =>
    if e = 'u' then parseHexBody rest
    else
      match escDecode e with
      | some c2 =>
        match parseStringBody rest with
        | some p => some (c2 :: p.1, p.2)
        | none => none
      | none => none

/-- The four hex digits of a `\uXXXX` escape. -/
def parseHexBody : List Char → Option (List Char × List Char)
  | h1 :: h2 :: h3 :: h4 :: r =>
    match hex4 h1 h2 h3 h4 with
    | some n =>
      match parseStringBody r with
      | some p => some (Char.ofNat n :: p.1, p.2)
      | none => none
    | none => none
  | _ => none

end

def expectNull : List Char → Option (Json × List Char)
  | 'u' :: 'l' :: 'l' :: r => some (.null, r)
  | _ => none

def expectTrue : List Char → Option (Json × List Char)
  | 'r' :: 'u' :: 'e' :: r => some (.bool true, r)
  | _ => none

def expectFalse : List Char → Option (Json × List Char)
  | 'a' :: 'l' :: 's' :: 'e' :: r => some (.bool false, r)
  | _ => none

/-- A JSON number (restricted to integers, see the section comment): an
optional minus sign followed by a digit run. -/
def parseNumber : List Char → Option (Int × List Char)
  | [] => none
  | c :: rest =>
    if c = '-' then
      match spanDigits rest with
      | ([], _) => none
      | (ds, r) => some (-(digitsVal ds : Int), r)
    else
      match spanDigits (c :: rest) with
      | ([], _) => none
      | (ds, r) => some ((digitsVal ds : Int), r)

mutual

/-- Modelled from the spec: one JSON value, recursive descent with explicit
fuel (the serde_json parser is not part of this repository). -/
def parseVal : Nat → List Char → Option (Json × List Char)
  | 0, _ => none
  | fuel + 1, cs =>
    match skipWs cs with
    | [] => none
    | c :: r =>
      if c = 'n' then expectNull r
      else if c = 't' then expectTrue r
      else if c = 'f' then expectFalse r
      else if c = '\"' then
        match parseStringBody r with
        | some p => some (.str (String.mk p.1), p.2)
        | none => none
      else if c = '[' then
        match skipWs r with
        | [] => none
        | c2 :: r2 =>
          if c2 = ']' then some (.arr [], r2)
          else
            match parseItems fuel (c2 :: r2) with
            | some p => some (.arr p.1, p.2)
            | none => none
      else if c = lbrace then
        match skipWs r with
        | [] => none
        | c2 :: r2 =>
          if c2 = rbrace then some (.obj [], r2)
          else
            match parsePairs fuel (c2 :: r2) with
            | some p => some (.obj p.1, p.2)
            | none => none
      else if c = '-' ∨ isDigitChar c = true then
        match parseNumber (c :: r) with
        | some p => some (.num p.1, p.2)
        | none => none
      else none

/-- One or more comma-separated array elements, up to the closing bracket. -/
def parseItems : Nat → List Char → Option (List Json × List Char)
  | 0, _ => none
  | fuel + 1, cs =>
    match parseVal fuel cs with
    | none => none
    | some (v, r) =>
      match skipWs r with
      | [] => none
      | c :: r2 =>
        if c = ',' then
          match parseItems fuel r2 with
          | some p => some (v :: p.1, p.2)
          | none => none
        else if c = ']' then some ([v], r2)
        else none

/-- One or more comma-separated object members, up to the closing brace. -/
def parsePairs : Nat → List Char → Option (List (String × Json) × List Char)
  | 0, _ => none
  | fuel + 1, cs =>
    match skipWs cs with
    | [] => none
    | c :: r =>
      if c = '\"' then
        match parseStringBody r with
        | none => none
        | some (key, r1) =>
          match skipWs r1 with
          | [] => none
          | c1 :: r2 =>
            if c1 = ':' then
              match parseVal fuel r2 with
              | none => none
              | some (v, r3) =>
                match skipWs r3 with
                | [] => none
                | c2 :: r4 =>
                  if c2 = ',' then
                    match parsePairs fuel r4 with
                    | some p => some ((String.mk key, v) :: p.1, p.2)
                    | none => none
                  else if c2 = rbrace then some ([(String.mk key, v)], r4)
                  else none
            else none
      else none

end

/-- Modelled from the spec: parsing a complete JSON document from characters —
one value, then nothing but trailing whitespace. -/
def parseJson (cs : List Char) : Option Json :=
  match parseVal (cs.length + 1) cs with
  | some (j, r) => if skipWs r = [] then some j else none
  | none => none

/-- Modelled from the spec: `serde_json::from_slice` — UTF-8 validation and
JSON parsing of a byte sequence. -/
def jsonParse (bytes : List Nat) : Option Json :=
  match utf8Decode bytes with
  | none => none
  | some cs => parseJson cs

/-! ## Lexical round-trip lemmas -/

theorem digitVal_digitChar : ∀ d, d < 10 → digitVal (digitChar d) = d := by decide

theorem isDigitChar_digitChar : ∀ d, d < 10 → isDigitChar (digitChar d) = true := by decide

theorem hexVal_hexDigitChar : ∀ d, d < 16 → hexVal (hexDigitChar d) = some d := by decide

/-- A digit character is none of the characters the value parser dispatches
on, and is not whitespace. -/
theorem digitChar_facts {c : Char} (h : isDigitChar c = true) :
    c ≠ 'n' ∧ c ≠ 't' ∧ c ≠ 'f' ∧ c ≠ '\"' ∧ c ≠ '[' ∧ c ≠ lbrace ∧ c ≠ ']' ∧
    c ≠ rbrace ∧ c ≠ '-' ∧ c ≠ ',' ∧ isWsChar c = false := by
  refine ⟨?_, ?_, ?_, ?_, ?_, ?_, ?_, ?_, ?_, ?_, ?_⟩
  · exact fun hEq => absurd (hEq ▸ h) (by decide)
  · exact fun hEq => absurd (hEq ▸ h) (by decide)
  · exact fun hEq => absurd (hEq ▸ h) (by decide)
  · exact fun hEq => absurd (hEq ▸ h) (by decide)
  · exact fun hEq => absurd (hEq ▸ h) (by decide)
  · exact fun hEq => absurd (hEq ▸ h) (by decide)
  · exact fun hEq => absurd (hEq ▸ h) (by decide)
  · exact fun hEq => absurd (hEq ▸ h) (by decide)
  · exact fun hEq => absurd (hEq ▸ h) (by decide)
  · exact fun hEq => absurd (hEq ▸ h) (by decide)
  · cases hw : isWsChar c with
    | false => rfl
    | true =>
      exfalso
      rw [isWsChar] at hw
      simp only [Bool.or_eq_true, decide_eq_true_eq] at hw
      rcases hw with ((hEq | hEq) | hEq) | hEq <;> exact absurd (hEq ▸ h) (by decide)

theorem skipWs_cons_not {c : Char} {l : List Char} (h : isWsChar c = false) :
    skipWs (c :: l) = c :: l := by
  rw [skipWs, h]
  rfl

theorem natChars_ne_nil (n : Nat) : natChars n ≠ [] := by
  rw [natChars]
  by_cases h : n = 0
  · rw [if_pos h]; simp
  · rw [if_neg h]
    simp [Nat.digits_ne_nil_iff_ne_zero.mpr h]

theorem natChars_digits (n : Nat) : ∀ c ∈ natChars n, isDigitChar c = true := by
  rw [natChars]
  by_cases h : n = 0
  · rw [if_pos h]; intro c hc; simp at hc; subst hc; decide
  · rw [if_neg h]
    intro c hc
    rw [List.mem_map] at hc
    obtain ⟨d, hd, hcd⟩ := hc
    rw [List.mem_reverse] at hd
    have hlt : d < 10 := Nat.digits_lt_base (by omega) hd
    rw [← hcd]
    exact isDigitChar_digitChar d hlt

theorem natChars_cons (n : Nat) :
    ∃ c t, natChars n = c :: t ∧ isDigitChar c = true := by
  obtain ⟨c, t, h⟩ := List.exists_cons_of_ne_nil (natChars_ne_nil n)
  exact ⟨c, t, h, natChars_digits n c (h ▸ List.mem_cons_self c t)⟩

theorem digitsVal_natChars (n : Nat) : digitsVal (natChars n) = n := by
  rw [natChars]
  by_cases h : n = 0
  · rw [if_pos h, h]; rfl
  · rw [if_neg h]
    suffices hgen : ∀ ds : List Nat, (∀ d ∈ ds, d < 10) →
        digitsVal ((ds.reverse).map digitChar) = Nat.ofDigits 10 ds by
      rw [hgen (Nat.digits 10 n) (fun d hd => Nat.digits_lt_base (by omega) hd),
        Nat.ofDigits_digits]
    intro ds
    induction ds with
    | nil => intro _; rfl
    | cons d rest ih =>
      intro hds
      have hd : d < 10 := hds d (List.mem_cons_self _ _)
      rw [List.reverse_cons, List.map_append, digitsVal, List.foldl_append]
      have hrest := ih (fun x hx => hds x (List.mem_cons_of_mem _ hx))
      rw [digitsVal] at hrest
      rw [hrest, Nat.ofDigits_cons]
      simp [digitVal_digitChar d hd]
      ring

/-- `true` when the input cannot extend a digit run: empty, or headed by a
non-digit (every JSON delimiter qualifies). -/
def headNotDigit : List Char → Bool
  | [] => true
  | c :: _ => !(isDigitChar c)

theorem spanDigits_stop {l : List Char} (h : headNotDigit l = true) :
    spanDigits l = ([], l) := by
  cases l with
  | nil => rfl
  | cons c rest =>
    rw [headNotDigit, Bool.not_eq_true'] at h
    rw [spanDigits, h]
    rfl

theorem spanDigits_append :
    ∀ ds : List Char, (∀ c ∈ ds, isDigitChar c = true) →
      ∀ rest : List Char, headNotDigit rest = true →
        spanDigits (ds ++ rest) = (ds, rest) := by
  intro ds
  induction ds with
  | nil => intro _ rest hrest; rw [List.nil_append, spanDigits_stop hrest]
  | cons c t ih =>
    intro hds rest hrest
    rw [List.cons_append, spanDigits, hds c (List.mem_cons_self _ _),
      ih (fun x hx => hds x (List.mem_cons_of_mem _ hx)) rest hrest]
    rfl

/-- The number codec round-trip: whenever the remainder cannot extend the
digit run, parsing a rendered integer recovers it. -/
theorem parseNumber_intChars (i : Int) (rest : List Char)
    (hrest : headNotDigit rest = true) :
    parseNumber (intChars i ++ rest) = some (i, rest) := by
  rw [intChars]
  obtain ⟨c, t, hct, hcd⟩ := natChars_cons i.natAbs
  by_cases hneg : i < 0
  · rw [if_pos hneg, List.cons_append, parseNumber, if_pos rfl,
      spanDigits_append (natChars i.natAbs) (natChars_digits i.natAbs) rest hrest, hct]
    show some (-(digitsVal (c :: t) : Int), rest) = some (i, rest)
    rw [← hct, digitsVal_natChars]
    have : -(i.natAbs : Int) = i := by omega
    rw [this]
  · rw [if_neg hneg, hct, List.cons_append, parseNumber,
      if_neg (digitChar_facts hcd).2.2.2.2.2.2.2.2.1]
    rw [← List.cons_append, ← hct,
      spanDigits_append (natChars i.natAbs) (natChars_digits i.natAbs) rest hrest, hct]
    show some ((digitsVal (c :: t) : Int), rest) = some (i, rest)
    rw [← hct, digitsVal_natChars]
    have : (i.natAbs : Int) = i := by omega
    rw [this]

/-- Parsing one escaped character undoes the escaping, whatever follows. -/
theorem parseStringBody_escape (c : Char) (rest : List Char) :
    parseStringBody (escapeChar c ++ rest) =
      match parseStringBody rest with
      | some p => some (c :: p.1, p.2)
      | none => none := by
  rw [escapeChar]
  by_cases h1 : c = '\"'
  · subst h1
    rw [if_pos rfl]
    simp only [List.cons_append, List.nil_append]
    rw [parseStringBody, if_neg (by decide), if_pos rfl, parseEscBody, if_neg (by decide)]
    rfl
  · rw [if_neg h1]
    by_cases h2 : c = '\\'
    · subst h2
      rw [if_pos rfl]
      simp only [List.cons_append, List.nil_append]
      rw [parseStringBody, if_neg (by decide), if_pos rfl, parseEscBody, if_neg (by decide)]
      rfl
    · rw [if_neg h2]
      by_cases h3 : c.toNat < 32
      · rw [if_pos h3, controlEscape]
        simp only [List.cons_append, List.nil_append]
        rw [parseStringBody, if_neg (by decide), if_pos rfl, parseEscBody, if_pos rfl,
          parseHexBody]
        have hh : hex4 '0' '0' (hexDigitChar (c.toNat / 16)) (hexDigitChar (c.toNat % 16))
            = some c.toNat := by
          simp only [hex4, show hexVal '0' = some 0 from rfl,
            hexVal_hexDigitChar (c.toNat / 16) (by omega),
            hexVal_hexDigitChar (c.toNat % 16) (by omega)]
          have harith : ((0 * 16 + 0) * 16 + c.toNat / 16) * 16 + c.toNat % 16 = c.toNat := by
            omega
          rw [harith]
        rw [hh]
        simp only [Char.ofNat_toNat]
      · rw [if_neg h3]
        simp only [List.cons_append, List.nil_append]
        rw [parseStringBody, if_neg h1, if_neg h2, if_neg h3]

/-- The string-body codec round-trip: parsing an escaped character run stops
exactly at the closing quote and recovers the characters. -/
theorem parseStringBody_escList :
    ∀ l rest : List Char,
      parseStringBody (escapeList l ++ '\"' :: rest) = some (l, rest) := by
  intro l
  induction l with
  | nil =>
    intro rest
    rw [escapeList, List.nil_append, parseStringBody, if_pos rfl]
  | cons c t ih =>
    intro rest
    rw [escapeList, List.append_assoc, parseStringBody_escape, ih]

/-- Every rendered value begins with a character that is neither whitespace
nor a closing bracket. -/
theorem renderJson_head (j : Json) :
    ∃ c t, renderJson j = c :: t ∧ isWsChar c = false ∧ c ≠ ']' := by
  cases j with
  | null => exact ⟨'n', _, rfl, by decide, by decide⟩
  | bool b =>
    cases b with
    | false => exact ⟨'f', _, rfl, by decide, by decide⟩
    | true => exact ⟨'t', _, rfl, by decide, by decide⟩
  | num i =>
    by_cases hneg : i < 0
    · refine ⟨'-', natChars i.natAbs, ?_, by decide, by decide⟩
      rw [renderJson, intChars, if_pos hneg]
    · obtain ⟨c, t, hct, hcd⟩ := natChars_cons i.natAbs
      have hfacts := digitChar_facts hcd
      refine ⟨c, t, ?_, hfacts.2.2.2.2.2.2.2.2.2.2, hfacts.2.2.2.2.2.2.1⟩
      rw [renderJson, intChars, if_neg hneg, hct]
  | str s => exact ⟨'\"', _, rfl, by decide, by decide⟩
  | arr es => exact ⟨'[', _, rfl, by decide, by decide⟩
  | obj ms => exact ⟨lbrace, _, rfl, by decide, by decide⟩

/-- A nonempty rendered element list begins with its first element. -/
theorem renderArr_cons_decomp (e : Json) (es : List Json) :
    ∃ X, renderArr (e :: es) = renderJson e ++ X := by
  cases es with
  | nil => exact ⟨[], by rw [renderArr, List.append_nil]⟩
  | cons e2 es' => exact ⟨',' :: renderArr (e2 :: es'), by rw [renderArr]⟩

/-- A nonempty rendered member list begins with the quote of its first key. -/
theorem renderObj_cons_head (kv : String × Json) (ms : List (String × Json)) :
    ∃ Y, renderObj (kv :: ms) = '\"' :: Y := by
  obtain ⟨k, v⟩ := kv
  cases ms with
  | nil => exact ⟨_, by rw [renderObj, renderString, List.cons_append]⟩
  | cons m2 ms' => exact ⟨_, by rw [renderObj, renderString, List.cons_append]⟩

mutual

/-- The JSON codec round-trip for one value: with enough fuel, parsing a
rendered value (followed by anything that cannot extend a number) recovers
it exactly. -/
theorem rtVal : ∀ (j : Json) (fuel : Nat) (rest : List Char),
    (renderJson j).length < fuel → headNotDigit rest = true →
    parseVal fuel (renderJson j ++ rest) = some (j, rest)
  | .null, fuel, rest, hf, _ => by
    cases fuel with
    | zero => exact absurd hf (Nat.not_lt_zero _)
    | succ f =>
      rw [renderJson, nullChars]
      simp only [List.cons_append, List.nil_append]
      rw [parseVal]
      simp only [skipWs_cons_not (show isWsChar 'n' = false by decide), reduceIte]
      rw [expectNull]
  | .bool true, fuel, rest, hf, _ => by
    cases fuel with
    | zero => exact absurd hf (Nat.not_lt_zero _)
    | succ f =>
      rw [renderJson, trueChars]
      simp only [List.cons_append, List.nil_append]
      rw [parseVal]
      simp only [skipWs_cons_not (show isWsChar 't' = false by decide), reduceIte]
      rw [expectTrue]
      rfl
  | .bool false, fuel, rest, hf, _ => by
    cases fuel with
    | zero => exact absurd hf (Nat.not_lt_zero _)
    | succ f =>
      rw [renderJson, falseChars]
      simp only [List.cons_append, List.nil_append]
      rw [parseVal]
      simp only [skipWs_cons_not (show isWsChar 'f' = false by decide), reduceIte]
      rw [expectFalse]
      rfl
  | .num i, fuel, rest, hf, hrest => by
    cases fuel with
    | zero => exact absurd hf (Nat.not_lt_zero _)
    | succ f =>
      rw [renderJson]
      by_cases hneg : i < 0
      · have hint : intChars i = '-' :: natChars i.natAbs := by rw [intChars, if_pos hneg]
        rw [hint, List.cons_append, parseVal]
        simp only [skipWs_cons_not (show isWsChar '-' = false by decide), reduceIte,
          true_or, if_neg (show ¬('-' = lbrace) by decide)]
        rw [← List.cons_append, ← hint, parseNumber_intChars i rest hrest]
        rfl
      · obtain ⟨c, t, hct, hcd⟩ := natChars_cons i.natAbs
        have hfacts := digitChar_facts hcd
        have hint : intChars i = c :: t := by rw [intChars, if_neg hneg, hct]
        rw [hint, List.cons_append, parseVal]
        simp only [skipWs_cons_not hfacts.2.2.2.2.2.2.2.2.2.2]
        rw [if_neg hfacts.1, if_neg hfacts.2.1, if_neg hfacts.2.2.1, if_neg hfacts.2.2.2.1,
          if_neg hfacts.2.2.2.2.1, if_neg hfacts.2.2.2.2.2.1, if_pos (Or.inr hcd)]
        rw [← List.cons_append, ← hint, parseNumber_intChars i rest hrest]
  | .str s, fuel, rest, hf, _ => by
    cases fuel with
    | zero => exact absurd hf (Nat.not_lt_zero _)
    | succ f =>
      rw [renderJson, renderString]
      simp only [List.cons_append, List.append_assoc, List.nil_append]
      rw [parseVal]
      simp only [skipWs_cons_not (show isWsChar '\"' = false by decide), reduceIte]
      rw [parseStringBody_escList]
      rfl
  | .arr [], fuel, rest, hf, _ => by
    cases fuel with
    | zero => exact absurd hf (Nat.not_lt_zero _)
    | succ f =>
      rw [renderJson, renderArr]
      simp only [List.nil_append, List.cons_append]
      rw [parseVal]
      simp only [skipWs_cons_not (show isWsChar '[' = false by decide),
        skipWs_cons_not (show isWsChar ']' = false by decide), reduceIte]
      rfl
  | .arr (e :: es), fuel, rest, hf, _ => by
    cases fuel with
    | zero => exact absurd hf (Nat.not_lt_zero _)
    | succ f =>
      have hlen : (renderArr (e :: es)).length + 1 < f := by
        rw [renderJson] at hf
        simp only [List.length_cons, List.length_append, List.length_singleton] at hf
        omega
      obtain ⟨X, hX⟩ := renderArr_cons_decomp e es
      obtain ⟨c0, t0, hhead, hws, hnr⟩ := renderJson_head e
      have hshape : renderArr (e :: es) ++ ']' :: rest = c0 :: (t0 ++ (X ++ ']' :: rest)) := by
        rw [hX, hhead]
        simp [List.cons_append, List.append_assoc]
      rw [renderJson]
      simp only [List.cons_append, List.append_assoc, List.nil_append]
      rw [parseVal]
      simp only [skipWs_cons_not (show isWsChar '[' = false by decide), reduceIte]
      simp only [hshape, skipWs_cons_not hws]
      rw [if_neg hnr, ← hshape, rtItems e es f rest hlen]
      rfl
  | .obj [], fuel, rest, hf, _ => by
    cases fuel with
    | zero => exact absurd hf (Nat.not_lt_zero _)
    | succ f =>
      rw [renderJson, renderObj]
      simp only [List.nil_append, List.cons_append]
      rw [parseVal]
      simp only [skipWs_cons_not (show isWsChar lbrace = false by decide),
        skipWs_cons_not (show isWsChar rbrace = false by decide), reduceIte]
      rfl
  | .obj (kv :: ms), fuel, rest, hf, _ => by
    cases fuel with
    | zero => exact absurd hf (Nat.not_lt_zero _)
    | succ f =>
      have hlen : (renderObj (kv :: ms)).length + 1 < f := by
        rw [renderJson] at hf
        simp only [List.length_cons, List.length_append, List.length_singleton] at hf
        omega
      obtain ⟨Y, hY⟩ := renderObj_cons_head kv ms
      have hshape : renderObj (kv :: ms) ++ rbrace :: rest = '\"' :: (Y ++ rbrace :: rest) := by
        rw [hY, List.cons_append]
      rw [renderJson]
      simp only [List.cons_append, List.append_assoc, List.nil_append]
      rw [parseVal]
      simp only [skipWs_cons_not (show isWsChar lbrace = false by decide), reduceIte]
      simp only [hshape, skipWs_cons_not (show isWsChar '\"' = false by decide)]
      rw [if_neg (show ¬('\"' = rbrace) by decide), ← hshape, rtPairs kv ms f rest hlen]
      rfl
termination_by j _ _ _ _ => sizeOf j

/-- The round-trip for one-or-more rendered array elements up to `]`. -/
theorem rtItems : ∀ (e : Json) (es : List Json) (fuel : Nat) (rest : List Char),
    (renderArr (e :: es)).length + 1 < fuel →
    parseItems fuel (renderArr (e :: es) ++ ']' :: rest) = some (e :: es, rest)
  | e, [], fuel, rest, hf => by
    cases fuel with
    | zero => exact absurd hf (Nat.not_lt_zero _)
    | succ f =>
      rw [renderArr] at hf ⊢
      have hv := rtVal e f (']' :: rest) (by omega) rfl
      rw [parseItems]
      simp only [hv]
      simp only [skipWs_cons_not (show isWsChar ']' = false by decide), reduceIte]
      rfl
  | e, e2 :: es', fuel, rest, hf => by
    cases fuel with
    | zero => exact absurd hf (Nat.not_lt_zero _)
    | succ f =>
      rw [renderArr] at hf ⊢
      simp only [List.length_append, List.length_cons] at hf
      have hv := rtVal e f (',' :: (renderArr (e2 :: es') ++ ']' :: rest)) (by omega) rfl
      simp only [List.append_assoc, List.cons_append]
      rw [parseItems]
      simp only [hv]
      simp only [skipWs_cons_not (show isWsChar ',' = false by decide), reduceIte]
      rw [rtItems e2 es' f rest (by omega)]
termination_by e es _ _ _ => sizeOf e + sizeOf es

/-- The round-trip for one-or-more rendered object members up to the closing
brace. -/
theorem rtPairs : ∀ (kv : String × Json) (ms : List (String × Json)) (fuel : Nat)
    (rest : List Char),
    (renderObj (kv :: ms)).length + 1 < fuel →
    parsePairs fuel (renderObj (kv :: ms) ++ rbrace :: rest) = some (kv :: ms, rest)
  | (k, v), [], fuel, rest, hf => by
    cases fuel with
    | zero => exact absurd hf (Nat.not_lt_zero _)
    | succ f =>
      rw [renderObj, renderString] at hf ⊢
      simp only [List.length_append, List.length_cons] at hf
      simp only [List.cons_append, List.append_assoc, List.nil_append]
      rw [parsePairs]
      simp only [skipWs_cons_not (show isWsChar '\"' = false by decide), reduceIte]
      rw [parseStringBody_escList]
      simp only [skipWs_cons_not (show isWsChar ':' = false by decide), reduceIte]
      have hv := rtVal v f (rbrace :: rest) (by omega) rfl
      simp only [hv]
      simp only [skipWs_cons_not (show isWsChar rbrace = false by decide), reduceIte]
      rfl
  | (k, v), m2 :: ms', fuel, rest, hf => by
    cases fuel with
    | zero => exact absurd hf (Nat.not_lt_zero _)
    | succ f =>
      rw [renderObj, renderString] at hf ⊢
      simp only [List.length_append, List.length_cons] at hf
      simp only [List.cons_append, List.append_assoc, List.nil_append]
      rw [parsePairs]
      simp only [skipWs_cons_not (show isWsChar '\"' = false by decide), reduceIte]
      rw [parseStringBody_escList]
      simp only [skipWs_cons_not (show isWsChar ':' = false by decide), reduceIte]
      have hv := rtVal v f (',' :: (renderObj (m2 :: ms') ++ rbrace :: rest)) (by omega) rfl
      simp only [hv]
      simp only [skipWs_cons_not (show isWsChar ',' = false by decide), reduceIte]
      rw [rtPairs m2 ms' f rest (by omega)]
      rfl
termination_by kv ms _ _ _ => sizeOf kv + sizeOf ms

end

/-- Parsing a rendered document recovers it exactly. -/
theorem parseJson_render (doc : Json) : parseJson (renderJson doc) = some doc := by
  have h := rtVal doc ((renderJson doc).length + 1) [] (by omega) rfl
  rw [List.append_nil] at h
  rw [parseJson]
  simp only [h]
  rfl

/-- The byte-level codec round-trip through UTF-8 encoding. -/
theorem jsonParse_render (doc : Json) :
    jsonParse (utf8Encode (renderJson doc)) = some doc := by
  rw [jsonParse]
  simp only [utf8_roundtrip]
  exact parseJson_render doc

/-! ## The schema step: `split_recipe_from_pantry` -/

/-- Key lookup among the fields of a JSON object (first occurrence). -/
def fieldLookup : List (String × Json) → String → Option Json
  | [], _ => none
  | (k, v) :: rest, key => if k = key then some v else fieldLookup rest key

/-- Modelled from the spec: `serde_json::Value::get(key)` — a field of an
object, `None` on any other shape. -/
def jsonGet (j : Json) (key : String) : Option Json :=
  match j with
  | .obj fields => fieldLookup fields key
  | _ => none

/-- Modelled from the spec: `serde_json::Value::as_object`. -/
def asObject : Json → Option (List (String × Json))
  | .obj fields => some fields
  | _ => none

/-- Modelled from the spec: `serde_json::Value::as_u64` — the value of a
number that is a non-negative integer below `2^64`, `None` otherwise (also
for every non-numeric value). -/
def as_u64 : Json → Option Nat
  | .num i => if 0 ≤ i ∧ i < 18446744073709551616 then some i.toNat else none
  | _ => none

/-- The four failure exits of `split_recipe_from_pantry` (lines 62–84 of the
source), each one a `.context(...)` message; the spec groups all four into
its `SchemaError` class. -/
inductive SchemaFailure where
  | missingRecipe : SchemaFailure
  | recipeNotObject : SchemaFailure
  | missingPantry : SchemaFailure
  | pantryNotObject : SchemaFailure
deriving DecidableEq

/-- `split_recipe_from_pantry` (lines 58–93 of the source): require the
`recipe` and `pantry` fields, each an object, and coerce every field value
with `as_u64(..).unwrap_or(0)`. -/
def split_recipe_from_pantry (input : Json) : Except SchemaFailure Bakery :=
  match jsonGet input "recipe" with
  | none => .error .missingRecipe
  | some recipe =>
    match asObject recipe with
    | none => .error .recipeNotObject
    | some recipeFields =>
      match jsonGet input "pantry" with
      | none => .error .missingPantry
      | some pantry =>
        match asObject pantry with
        | none => .error .pantryNotObject
        | some pantryFields =>
          .ok ⟨recipeFields.map (fun kv => (kv.1, (as_u64 kv.2).getD 0)),
               pantryFields.map (fun kv => (kv.1, (as_u64 kv.2).getD 0))⟩

/-! ## The token decoder: `get_recipe_from_header` -/

/-- The three failure exits of the token pipeline in `get_recipe_from_header`
(lines 163–174 of the source), each one a `.context(...)` message. -/
inductive TokenFailure where
  | malformedToken : TokenFailure
  | encodingError : TokenFailure
  | formatError : TokenFailure
deriving DecidableEq

/-- Lines 163–177 of the source: split the rendered cookie at the first `=`
("Badly formed recipe cookie"), Base64-decode the value ("Unable to base64
decode the cookie."), parse the bytes as JSON ("Unable to parse to JSON"). -/
def decodeToken (token : String) : Except TokenFailure Json :=
  match splitOnce '=' token.toList with
  | none => .error .malformedToken
  | some (_, value) =>
    match b64Decode value with
    | none => .error .encodingError
    | some bytes =>
      match jsonParse bytes with
      | none => .error .formatError
      | some j => .ok j

/-- A failure of `get_recipe_from_header`: the missing-cookie exit
("No cookie recipe in cookie jar") or a token failure. -/
inductive HeaderFailure where
  | noCookie : HeaderFailure
  | tokenFailed : TokenFailure → HeaderFailure
deriving DecidableEq

/-- `get_recipe_from_header` (lines 154–178): the `recipe` cookie, rendered
to its `name=value` string, run through the token pipeline.  The input models
`request.cookie("recipe").map(|c| c.to_string())`. -/
def get_recipe_from_header (cookie : Option String) : Except HeaderFailure Json :=
  match cookie with
  | none => .error .noCookie
  | some token =>
    match decodeToken token with
    | .ok j => .ok j
    | .error e => .error (.tokenFailed e)

/-! ## The error type, status codes and endpoints -/

/-- The `RecipeParseError` enum (lines 180–186 of the source). -/
inductive RecipeParseError where
  | DecodeError : RecipeParseError
  | UnexpectedError : RecipeParseError
deriving DecidableEq

/-- `ResponseError::status_code` (lines 194–200 of the source). -/
def status_code : RecipeParseError → Nat
  | .DecodeError => 400
  | .UnexpectedError => 500

/-- How a failure of `get_recipe_from_header` becomes a `RecipeParseError`:
every failing step uses `.context(...)`, which converts the underlying error
(including the `base64::DecodeError`) into an `anyhow::Error`; the `?`
operator then applies `From<anyhow::Error>`, which always builds
`UnexpectedError`.  The `DecodeError` variant (and its 400 mapping) is
unreachable from this function. -/
def toRecipeParseError (_ : HeaderFailure) : RecipeParseError := .UnexpectedError

/-- The HTTP status of `GET /7/decode` (lines 8–15): on success actix returns
200; on failure it consults `status_code` of the returned error. -/
def decode (cookie : Option String) : Nat :=
  match get_recipe_from_header cookie with
  | .ok _ => 200
  | .error e => status_code (toRecipeParseError e)

/-- The HTTP status of `GET /7/bake` (lines 17–41): both failure matches
return `HttpResponse::BadRequest()`; a panic inside `calculate_cookies` is
modelled as a server fault. -/
def bake (cookie : Option String) : Nat :=
  match get_recipe_from_header cookie with
  | .error _ => 400
  | .ok j =>
    match split_recipe_from_pantry j with
    | .error _ => 400
    | .ok bakery =>
      match calculate_cookies bakery with
      | some _ => 200
      | none => 500

/-! ## The spec's Decoder contract (§4.1), steps 1–4 -/

/-- The spec's four decode-failure classes (§7). -/
inductive ErrClass where
  | MalformedToken : ErrClass
  | EncodingError : ErrClass
  | FormatError : ErrClass
  | SchemaError : ErrClass
deriving DecidableEq

/-- The spec's Decoder (§4.1): the token pipeline of
`get_recipe_from_header` followed by the schema step of
`split_recipe_from_pantry`, with each source failure exit mapped to its
spec error class. -/
def theDecoder (token : String) : Except ErrClass Bakery :=
  match decodeToken token with
  | .error .malformedToken => .error .MalformedToken
  | .error .encodingError => .error .EncodingError
  | .error .formatError => .error .FormatError
  | .ok j =>
    match split_recipe_from_pantry j with
    | .error _ => .error .SchemaError
    | .ok b => .ok b

/-- Modelled from the spec: a well-shaped RecipeDocument — `recipe` and
`pantry` fields present, each itself a JSON object. -/
def WellShaped (j : Json) : Prop :=
  (∃ rf, jsonGet j "recipe" = some (.obj rf)) ∧ ∃ pf, jsonGet j "pantry" = some (.obj pf)

theorem asObject_eq_some {v : Json} {l : List (String × Json)} :
    asObject v = some l ↔ v = .obj l := by
  cases v <;> simp [asObject]

/-- A well-shaped document passes the schema step, and the resulting maps are
the lenient coercions of the two field lists. -/
theorem split_ok_of_wellShaped (j : Json) (rf pf : List (String × Json))
    (hr : jsonGet j "recipe" = some (.obj rf))
    (hp : jsonGet j "pantry" = some (.obj pf)) :
    split_recipe_from_pantry j =
      .ok ⟨rf.map (fun kv => (kv.1, (as_u64 kv.2).getD 0)),
           pf.map (fun kv => (kv.1, (as_u64 kv.2).getD 0))⟩ := by
  rw [split_recipe_from_pantry]
  simp only [hr, hp, asObject]

/-- A document that is not well shaped fails the schema step. -/
theorem split_error_of_not_wellShaped (j : Json) (h : ¬ WellShaped j) :
    ∃ e, split_recipe_from_pantry j = .error e := by
  rw [split_recipe_from_pantry]
  cases hr : jsonGet j "recipe" with
  | none => exact ⟨.missingRecipe, rfl⟩
  | some recipe =>
    simp only [hr]
    cases hro : asObject recipe with
    | none => exact ⟨.recipeNotObject, rfl⟩
    | some rf =>
      simp only [hro]
      cases hp : jsonGet j "pantry" with
      | none => exact ⟨.missingPantry, rfl⟩
      | some pantry =>
        simp only [hp]
        cases hpo : asObject pantry with
        | none => exact ⟨.pantryNotObject, rfl⟩
        | some pf =>
          exact absurd ⟨⟨rf, by rw [hr, asObject_eq_some.mp hro]⟩,
            ⟨pf, by rw [hp, asObject_eq_some.mp hpo]⟩⟩ h

/-- After a successful split of the token, the Decoder is the remaining
three-stage cascade. -/
theorem theDecoder_split_some (token : String) (a b : List Char)
    (hsplit : splitOnce '=' token.toList = some (a, b)) :
    theDecoder token =
      (match b64Decode b with
       | none => .error .EncodingError
       | some bytes =>
         match jsonParse bytes with
         | none => .error .FormatError
         | some j =>
           match split_recipe_from_pantry j with
           | .error _ => .error .SchemaError
           | .ok bk => .ok bk) := by
  rw [theDecoder, decodeToken]
  simp only [hsplit]
  cases hb : b64Decode b with
  | none => simp only [hb]
  | some bytes =>
    simp only [hb]
    cases hj : jsonParse bytes with
    | none => simp only [hj]
    | some j => simp only [hj]

/-! ## The claims about the Decoder and the endpoints -/

/-- Claim C6: the Decoder fails exactly when one of its four ordered steps
fails, each with its distinct error class — no `=` separator fails as
`MalformedToken` before any decoding; an invalid Base64 value fails as
`EncodingError`; bytes that are not UTF-8 JSON fail as `FormatError`; a
document without object-shaped `recipe` and `pantry` fields fails as
`SchemaError`; every other input succeeds. -/
theorem claim6_decoder_classes (token : String) :
    (theDecoder token = .error .MalformedToken ↔ '=' ∉ token.toList) ∧
    (∀ pre post, token.toList = pre ++ '=' :: post → '=' ∉ pre →
      ((theDecoder token = .error .EncodingError ↔ b64Decode post = none) ∧
       ∀ bytes, b64Decode post = some bytes →
         ((theDecoder token = .error .FormatError ↔ jsonParse bytes = none) ∧
          ∀ j, jsonParse bytes = some j →
            ((theDecoder token = .error .SchemaError ↔ ¬ WellShaped j) ∧
             (WellShaped j → ∃ b, theDecoder token = .ok b))))) := by
  cases hsplit : splitOnce '=' token.toList with
  | none =>
    have hnotin : '=' ∉ token.toList := (splitOnce_eq_none_iff '=' token.toList).mp hsplit
    have hdec : theDecoder token = .error .MalformedToken := by
      rw [theDecoder, decodeToken]
      simp only [hsplit]
    refine ⟨⟨fun _ => hnotin, fun _ => hdec⟩, ?_⟩
    intro pre post hdecomp _
    exact absurd (hdecomp ▸ List.mem_append_right pre (List.mem_cons_self _ _)) hnotin
  | some ab =>
    obtain ⟨a, b⟩ := ab
    have hmem : '=' ∈ token.toList := by
      obtain ⟨h1, _⟩ := splitOnce_some_spec '=' token.toList a b hsplit
      rw [h1]
      exact List.mem_append_right a (List.mem_cons_self _ _)
    have hchar := theDecoder_split_some token a b hsplit
    constructor
    · constructor
      · intro hdec
        exfalso
        rw [hchar] at hdec
        cases hb : b64Decode b with
        | none =>
          simp only [hb] at hdec
          exact absurd hdec (by simp)
        | some bytes =>
          simp only [hb] at hdec
          cases hj : jsonParse bytes with
          | none =>
            simp only [hj] at hdec
            exact absurd hdec (by simp)
          | some j =>
            simp only [hj] at hdec
            cases hs : split_recipe_from_pantry j with
            | error e =>
              simp only [hs] at hdec
              exact absurd hdec (by simp)
            | ok bk =>
              simp only [hs] at hdec
              exact absurd hdec (by simp)
      · intro hno
        exact absurd hmem hno
    · intro pre post hdecomp hpre
      have hid : splitOnce '=' token.toList = some (pre, post) := by
        rw [hdecomp]
        exact splitOnce_append '=' pre hpre post
      rw [hsplit] at hid
      cases hid
      constructor
      · constructor
        · intro hdec
          cases hb : b64Decode b with
          | none => rfl
          | some bytes =>
            exfalso
            rw [hchar] at hdec
            simp only [hb] at hdec
            cases hj : jsonParse bytes with
            | none =>
              simp only [hj] at hdec
              exact absurd hdec (by simp)
            | some j =>
              simp only [hj] at hdec
              cases hs : split_recipe_from_pantry j with
              | error e =>
                simp only [hs] at hdec
                exact absurd hdec (by simp)
              | ok bk =>
                simp only [hs] at hdec
                exact absurd hdec (by simp)
        · intro hb
          rw [hchar]
          simp only [hb]
      · intro bytes hb
        constructor
        · constructor
          · intro hdec
            cases hj : jsonParse bytes with
            | none => rfl
            | some j =>
              exfalso
              rw [hchar] at hdec
              simp only [hb, hj] at hdec
              cases hs : split_recipe_from_pantry j with
              | error e =>
                simp only [hs] at hdec
                exact absurd hdec (by simp)
              | ok bk =>
                simp only [hs] at hdec
                exact absurd hdec (by simp)
          · intro hj
            rw [hchar]
            simp only [hb, hj]
        · intro j hj
          constructor
          · constructor
            · intro hdec hws
              obtain ⟨⟨rf, hr⟩, ⟨pf, hp⟩⟩ := hws
              rw [hchar] at hdec
              simp only [hb, hj, split_ok_of_wellShaped j rf pf hr hp] at hdec
              exact absurd hdec (by simp)
            · intro hnws
              obtain ⟨e, hs⟩ := split_error_of_not_wellShaped j hnws
              rw [hchar]
              simp only [hb, hj, hs]
          · intro hws
            obtain ⟨⟨rf, hr⟩, ⟨pf, hp⟩⟩ := hws
            refine ⟨⟨rf.map (fun kv => (kv.1, (as_u64 kv.2).getD 0)),
              pf.map (fun kv => (kv.1, (as_u64 kv.2).getD 0))⟩, ?_⟩
            rw [hchar]
            simp only [hb, hj, split_ok_of_wellShaped j rf pf hr hp]

/-- Claim C6, witness: a token without `=` fails as `MalformedToken`. -/
theorem claim6_witness : theDecoder "abc" = .error .MalformedToken :=
  (claim6_decoder_classes "abc").1.mpr (by decide)

/-- Claim C7: for every well-shaped document, every field value that is not
representable as a non-negative integer is coerced to quantity 0 — in both
maps — and the schema step still succeeds. -/
theorem claim7_lenient_coercion (j : Json) (rf pf : List (String × Json))
    (hr : jsonGet j "recipe" = some (.obj rf))
    (hp : jsonGet j "pantry" = some (.obj pf)) :
    ∃ bakery, split_recipe_from_pantry j = .ok bakery ∧
      (∀ kv ∈ rf, as_u64 kv.2 = none → (kv.1, 0) ∈ bakery.recipe) ∧
      (∀ kv ∈ pf, as_u64 kv.2 = none → (kv.1, 0) ∈ bakery.pantry) := by
  refine ⟨_, split_ok_of_wellShaped j rf pf hr hp, ?_, ?_⟩
  · intro kv hkv hnone
    have hmem := List.mem_map_of_mem (fun kv => (kv.1, (as_u64 kv.2).getD 0)) hkv
    simp only [hnone, Option.getD_none] at hmem
    exact hmem
  · intro kv hkv hnone
    have hmem := List.mem_map_of_mem (fun kv => (kv.1, (as_u64 kv.2).getD 0)) hkv
    simp only [hnone, Option.getD_none] at hmem
    exact hmem

/-- Claim C7, witness: a string-valued recipe entry and a negative pantry
entry both decode to quantity 0, and the step succeeds. -/
theorem claim7_witness :
    ∃ bakery,
      split_recipe_from_pantry
        (Json.obj [("recipe", Json.obj [("flour", Json.str "x")]),
                   ("pantry", Json.obj [("sugar", Json.num (-3))])]) = .ok bakery ∧
      (∀ kv ∈ [("flour", Json.str "x")], as_u64 kv.2 = none → (kv.1, 0) ∈ bakery.recipe) ∧
      (∀ kv ∈ [("sugar", Json.num (-3))], as_u64 kv.2 = none → (kv.1, 0) ∈ bakery.pantry) :=
  claim7_lenient_coercion _ [("flour", Json.str "x")] [("sugar", Json.num (-3))] rfl rfl

/-- The test-side token construction of claim C8: `name=Base64(document)`,
with the document rendered compactly and UTF-8 encoded. -/
def tokenOf (name : String) (doc : Json) : String :=
  String.mk (name.toList ++ '=' :: b64Encode (utf8Encode (renderJson doc)))

/-- Claim C8: decoding a token built from a known document reproduces that
document exactly, for any object-shaped `recipe`/`pantry` (and any cookie
name free of `=`). -/
theorem claim8_roundtrip (doc : Json) (name : String)
    (hname : '=' ∉ name.toList)
    (_hr : ∃ rf, jsonGet doc "recipe" = some (.obj rf))
    (_hp : ∃ pf, jsonGet doc "pantry" = some (.obj pf)) :
    get_recipe_from_header (some (tokenOf name doc)) = .ok doc := by
  rw [get_recipe_from_header, decodeToken]
  have htok : (tokenOf name doc).toList
      = name.toList ++ '=' :: b64Encode (utf8Encode (renderJson doc)) := rfl
  rw [htok, splitOnce_append '=' name.toList hname]
  simp only [b64_roundtrip (utf8Encode (renderJson doc)) (utf8Encode_lt (renderJson doc)),
    jsonParse_render]

/-- Claim C8, witness at the document
`(recipe mapping empty, pantry mapping empty)` and cookie name `recipe`. -/
theorem claim8_witness :
    get_recipe_from_header
        (some (tokenOf "recipe" (Json.obj [("recipe", Json.obj []), ("pantry", Json.obj [])])))
      = .ok (Json.obj [("recipe", Json.obj []), ("pantry", Json.obj [])]) :=
  claim8_roundtrip (Json.obj [("recipe", Json.obj []), ("pantry", Json.obj [])]) "recipe"
    (by decide) ⟨[], rfl⟩ ⟨[], rfl⟩

/-- Claim C5 (the code bug): on `GET /7/decode` a decode failure is answered
with HTTP 500, not 400 — every failure is `.context(...)`-wrapped into
`anyhow::Error` and becomes `UnexpectedError`, whose `status_code` is
`INTERNAL_SERVER_ERROR`; the `DecodeError => 400` arm is dead code.  The
`bake` endpoint does return 400. -/
theorem claim5_decode_failure_is_500 :
    decode (some "recipe=not-base64!!") = 500 ∧
    bake (some "recipe=not-base64!!") = 400 ∧
    status_code .DecodeError = 400 ∧
    ∀ cookie e, get_recipe_from_header cookie = .error e → decode cookie = 500 := by
  refine ⟨?_, ?_, rfl, ?_⟩
  · rfl
  · rfl
  · intro cookie e h
    rw [decode, h]
    rfl

end Day7
